import Mathlib

/-!
Shallow embedding of the pysheets client-side engine and proofs about it.

The embedding covers the coordinate and value utilities, the formula-script
analyzer, the network trampoline, both variants of the spreadsheet data
facade (`src/static/api.py` current variant and `static/api.py` legacy
variant), the split-pane layout of `src/static/ltk/widgets.py`, and the
edit-history module `static/history.py`.  Machine strings are `String`
(lists of characters), Python integers are `Int`/`Nat`, Python floats that
only ever carry exact decimal values are `Rat`, Python dicts are
association lists with replace-or-append assignment, and raising code is
modelled with `Option`/`Except`.
-/

namespace PySheets

/-- ASCII uppercase letter test, the character class `[A-Z]`. -/
def isUpperAZ (c : Char) : Bool := 65 ≤ c.toNat && c.toNat ≤ 90

/-- ASCII digit test, the character class `[0-9]`; this is what
`str.isdigit` returns on every character that occurs in the analyzed
inputs. -/
def isDigit09 (c : Char) : Bool := 48 ≤ c.toNat && c.toNat ≤ 57

/-- One step of the character scan of `get_col_row_from_key`: a digit
extends the row accumulator (`row = row * 10 + int(c)`), any other
character extends the column accumulator
(`col = col * 26 + ord(c) - ord("A") + 1`, an `Int` because Python's
subtraction does not truncate). -/
def keyFoldStep (acc : Int × Nat) (c : Char) : Int × Nat :=
  if isDigit09 c then (acc.1, acc.2 * 10 + (c.toNat - 48))
  else (acc.1 * 26 + (c.toNat : Int) - 65 + 1, acc.2)

/-- `api.get_col_row_from_key`: scans the key left to right, accumulating
digits into the row and letters into the base-26 column value. -/
def get_col_row_from_key (key : String) : Int × Nat :=
  key.toList.foldl keyFoldStep (0, 0)

/-- Character list produced by the `while col > 0` loop of
`api.get_column_name`: repeatedly take `divmod(col - 1, 26)` and prepend
the letter for the remainder.  The first argument is fuel — any bound on
the number of iterations, instantiated with the column index itself in
`colNameAux` — making the definition structurally recursive and hence
kernel-evaluable; `colNameGo_fuel` shows the fuel does not matter. -/
def colNameGo : Nat → Nat → List Char
  | _, 0 => []
  | 0, _ + 1 => []
  | fuel + 1, m + 1 => colNameGo fuel (m / 26) ++ [Char.ofNat (m % 26 + 65)]

/-- The loop of `api.get_column_name` on a natural column index. -/
def colNameAux (n : Nat) : List Char := colNameGo n n

/-- `api.get_column_name`: the base-26 column letters for a column index;
non-positive indices skip the loop and yield the empty string. -/
def get_column_name (col : Int) : String := ⟨colNameAux col.toNat⟩

/-- Digit characters of a natural number, most significant first, empty
for 0; fueled like `colNameGo`. -/
def decGo : Nat → Nat → List Char
  | _, 0 => []
  | 0, _ + 1 => []
  | fuel + 1, m + 1 => decGo fuel ((m + 1) / 10) ++ [Char.ofNat ((m + 1) % 10 + 48)]

/-- Digit characters of a natural number, most significant first
(`decAux 0 = []`). -/
def decAux (n : Nat) : List Char := decGo n n

/-- Decimal rendering of a natural number, exactly Python's `f"{row}"`
for a non-negative int: canonical digits, and `0` renders as `"0"`. -/
def decRepr (n : Nat) : List Char := if n = 0 then ['0'] else decAux n

/-- `api.get_key_from_col_row`: `f"{get_column_name(col)}{row}"`. -/
def get_key_from_col_row (col : Int) (row : Nat) : String :=
  get_column_name col ++ ⟨decRepr row⟩

/-- `api.is_cell_reference`: full match of a string against
`^[A-Z]+[0-9]+$` — a maximal run of uppercase letters (non-empty)
followed only by digits (non-empty). -/
def isCellReference (s : String) : Bool :=
  let cs := s.toList
  !(cs.takeWhile isUpperAZ).isEmpty &&
    !(cs.dropWhile isUpperAZ).isEmpty &&
    (cs.dropWhile isUpperAZ).all isDigit09

/-- Matcher for `api.cell_range_reference`
(`^[A-Z]+[0-9]+ *: *[A-Z]+[0-9]+$`), returning the two cell keys with the
optional spaces stripped — exactly what `node.value.split(":")` followed
by `.strip()` produces on a matching string. -/
def parseRange (s : String) : Option (String × String) :=
  let cs := s.toList
  let L1 := cs.takeWhile isUpperAZ
  let r1 := cs.dropWhile isUpperAZ
  let D1 := r1.takeWhile isDigit09
  let r2 := r1.dropWhile isDigit09
  let r3 := r2.dropWhile (· = ' ')
  match r3 with
  | ':' :: r4 =>
    let r5 := r4.dropWhile (· = ' ')
    let L2 := r5.takeWhile isUpperAZ
    let r6 := r5.dropWhile isUpperAZ
    let D2 := r6.takeWhile isDigit09
    let r7 := r6.dropWhile isDigit09
    if L1.isEmpty || D1.isEmpty || L2.isEmpty || D2.isEmpty || !r7.isEmpty
    then none
    else some (⟨L1 ++ D1⟩, ⟨L2 ++ D2⟩)
  | _ => none

/-- `api.is_cell_range_reference`. -/
def isCellRangeReference (s : String) : Bool := (parseRange s).isSome

/-- Character list of the `while index >= 0` loop of `api.index_to_col`,
applied to the already-decremented index: emit the letter for
`index % 26`, then continue with `index // 26 - 1` while that stays
non-negative (equivalently, while `26 ≤ index`); fueled like
`colNameGo`. -/
def indexToColGo : Nat → Nat → List Char
  | 0, m => [Char.ofNat (m % 26 + 65)]
  | fuel + 1, m =>
    (if 26 ≤ m then indexToColGo fuel (m / 26 - 1) else []) ++
      [Char.ofNat (m % 26 + 65)]

/-- The loop of `api.index_to_col` on the decremented index. -/
def indexToColAux (m : Nat) : List Char := indexToColGo m m

/-- `api.index_to_col`: decrements the index once before the loop; a
non-positive index never enters the loop and yields the empty string. -/
def index_to_col (index : Int) : String :=
  if index ≤ 0 then "" else ⟨indexToColAux (index - 1).toNat⟩

/-- Base-26 value of a letter run, the column part of
`get_col_row_from_key` restricted to uppercase letters (`Nat` version
used in proofs). -/
def letterValN (L : List Char) : Nat :=
  L.foldl (fun a c => a * 26 + (c.toNat - 64)) 0

/-- Decimal value of a digit run, the row part of
`get_col_row_from_key`. -/
def digitsValN (D : List Char) : Nat :=
  D.foldl (fun a c => a * 10 + (c.toNat - 48)) 0

/-! ### Evaluation lemmas for the fueled loops -/

lemma colNameGo_zero (f : Nat) : colNameGo f 0 = [] := by
  cases f <;> rfl

lemma colNameGo_fuel (f1 : Nat) : ∀ f2 n, n ≤ f1 → n ≤ f2 →
    colNameGo f1 n = colNameGo f2 n := by
  induction f1 with
  | zero =>
    intro f2 n h1 _
    interval_cases n
    simp [colNameGo_zero]
  | succ g ih =>
    intro f2 n h1 h2
    match n, f2 with
    | 0, f2 => simp [colNameGo_zero]
    | m + 1, 0 => omega
    | m + 1, g2 + 1 =>
      show colNameGo g (m / 26) ++ _ = colNameGo g2 (m / 26) ++ _
      have hm : m / 26 ≤ m := Nat.div_le_self m 26
      rw [ih g2 (m / 26) (by omega) (by omega)]

lemma colNameAux_succ (m : Nat) :
    colNameAux (m + 1) = colNameAux (m / 26) ++ [Char.ofNat (m % 26 + 65)] := by
  show colNameGo m (m / 26) ++ _ = colNameGo (m / 26) (m / 26) ++ _
  rw [colNameGo_fuel m (m / 26) (m / 26) (Nat.div_le_self m 26) (le_refl _)]

lemma decGo_zero (f : Nat) : decGo f 0 = [] := by
  cases f <;> rfl

lemma decGo_fuel (f1 : Nat) : ∀ f2 n, n ≤ f1 → n ≤ f2 →
    decGo f1 n = decGo f2 n := by
  induction f1 with
  | zero =>
    intro f2 n h1 _
    interval_cases n
    simp [decGo_zero]
  | succ g ih =>
    intro f2 n h1 h2
    match n, f2 with
    | 0, f2 => simp [decGo_zero]
    | m + 1, 0 => omega
    | m + 1, g2 + 1 =>
      show decGo g ((m + 1) / 10) ++ _ = decGo g2 ((m + 1) / 10) ++ _
      have hm : (m + 1) / 10 ≤ m := by omega
      rw [ih g2 ((m + 1) / 10) (by omega) (by omega)]

lemma decAux_succ (m : Nat) :
    decAux (m + 1) = decAux ((m + 1) / 10) ++ [Char.ofNat ((m + 1) % 10 + 48)] := by
  show decGo m ((m + 1) / 10) ++ _ = decGo ((m + 1) / 10) ((m + 1) / 10) ++ _
  have hm : (m + 1) / 10 ≤ m := by omega
  rw [decGo_fuel m ((m + 1) / 10) ((m + 1) / 10) hm (le_refl _)]

lemma indexToColGo_fuel (f1 : Nat) : ∀ f2 m, m ≤ f1 → m ≤ f2 →
    indexToColGo f1 m = indexToColGo f2 m := by
  induction f1 with
  | zero =>
    intro f2 m h1 _
    interval_cases m
    cases f2 with
    | zero => rfl
    | succ g2 => simp [indexToColGo]
  | succ g ih =>
    intro f2 m h1 h2
    match f2 with
    | 0 =>
      interval_cases m
      simp [indexToColGo]
    | g2 + 1 =>
      show (if 26 ≤ m then indexToColGo g (m / 26 - 1) else []) ++ _ =
        (if 26 ≤ m then indexToColGo g2 (m / 26 - 1) else []) ++ _
      by_cases h26 : 26 ≤ m
      · have hd : m / 26 ≤ m := Nat.div_le_self m 26
        have h1' : m / 26 - 1 ≤ g := by omega
        have h2' : m / 26 - 1 ≤ g2 := by omega
        rw [if_pos h26, if_pos h26, ih g2 (m / 26 - 1) h1' h2']
      · rw [if_neg h26, if_neg h26]

lemma indexToColAux_eq (m : Nat) :
    indexToColAux m =
      (if 26 ≤ m then indexToColAux (m / 26 - 1) else []) ++
        [Char.ofNat (m % 26 + 65)] := by
  match m with
  | 0 => simp [indexToColAux, indexToColGo]
  | k + 1 =>
    show (if 26 ≤ k + 1 then indexToColGo k ((k + 1) / 26 - 1) else []) ++ _ = _
    by_cases h26 : 26 ≤ k + 1
    · have hd : (k + 1) / 26 ≤ k + 1 := Nat.div_le_self _ 26
      rw [if_pos h26, if_pos h26,
        indexToColGo_fuel k ((k + 1) / 26 - 1) ((k + 1) / 26 - 1) (by omega) (le_refl _)]
      rfl
    · rw [if_neg h26, if_neg h26]

/-! ### Character facts -/

set_option maxRecDepth 4096 in
lemma char_toNat_ofNat_small : ∀ n, n < 256 → (Char.ofNat n).toNat = n := by
  decide

lemma char_toNat_inj {c d : Char} (h : c.toNat = d.toNat) : c = d := by
  have hc := Char.ofNat_toNat c
  have hd := Char.ofNat_toNat d
  rw [← hc, ← hd, h]

lemma isUpperAZ_ofNat (k : Nat) (h : k < 26) :
    isUpperAZ (Char.ofNat (k + 65)) = true := by
  have ht := char_toNat_ofNat_small (k + 65) (by omega)
  simp only [isUpperAZ, ht, Bool.and_eq_true, decide_eq_true_eq]
  omega

lemma isDigit09_ofNat (k : Nat) (h : k < 10) :
    isDigit09 (Char.ofNat (k + 48)) = true := by
  have ht := char_toNat_ofNat_small (k + 48) (by omega)
  simp only [isDigit09, ht, Bool.and_eq_true, decide_eq_true_eq]
  omega

lemma isUpperAZ_toNat {c : Char} (h : isUpperAZ c = true) :
    65 ≤ c.toNat ∧ c.toNat ≤ 90 := by
  simpa [isUpperAZ, Bool.and_eq_true, decide_eq_true_eq] using h

lemma isDigit09_toNat {c : Char} (h : isDigit09 c = true) :
    48 ≤ c.toNat ∧ c.toNat ≤ 57 := by
  simpa [isDigit09, Bool.and_eq_true, decide_eq_true_eq] using h

lemma not_isDigit09_of_isUpperAZ {c : Char} (h : isUpperAZ c = true) :
    isDigit09 c = false := by
  cases hd : isDigit09 c
  · rfl
  · exfalso
    have h1 := isUpperAZ_toNat h
    have h2 := isDigit09_toNat hd
    omega

lemma not_isUpperAZ_of_isDigit09 {c : Char} (h : isDigit09 c = true) :
    isUpperAZ c = false := by
  cases hu : isUpperAZ c
  · rfl
  · exfalso
    have h1 := isUpperAZ_toNat hu
    have h2 := isDigit09_toNat h
    omega

/-! ### The key scan on a letter block followed by a digit block -/

lemma keyFold_letters (L : List Char) (hL : ∀ c ∈ L, isUpperAZ c = true) :
    ∀ a : Int, ∀ r : Nat,
      L.foldl keyFoldStep (a, r) =
        (L.foldl (fun x c => x * 26 + ((c.toNat : Int) - 64)) a, r) := by
  induction L with
  | nil => intro a r; rfl
  | cons c L ih =>
    intro a r
    have hc : isUpperAZ c = true := hL c (List.mem_cons_self c L)
    have hd : isDigit09 c = false := not_isDigit09_of_isUpperAZ hc
    have hstep : keyFoldStep (a, r) c = (a * 26 + ((c.toNat : Int) - 64), r) := by
      simp only [keyFoldStep, hd, Bool.false_eq_true, if_false, Prod.mk.injEq]
      exact ⟨by ring, trivial⟩
    simp only [List.foldl_cons, hstep]
    exact ih (fun d hdm => hL d (List.mem_cons_of_mem c hdm)) _ r

lemma keyFold_digits (D : List Char) (hD : ∀ c ∈ D, isDigit09 c = true) :
    ∀ a : Int, ∀ r : Nat,
      D.foldl keyFoldStep (a, r) =
        (a, D.foldl (fun x c => x * 10 + (c.toNat - 48)) r) := by
  induction D with
  | nil => intro a r; rfl
  | cons c D ih =>
    intro a r
    have hc : isDigit09 c = true := hD c (List.mem_cons_self c D)
    have hstep : keyFoldStep (a, r) c = (a, r * 10 + (c.toNat - 48)) := by
      simp only [keyFoldStep, hc, if_true]
    simp only [List.foldl_cons, hstep]
    exact ih (fun d hdm => hD d (List.mem_cons_of_mem c hdm)) a _

lemma letterFoldInt_cast (L : List Char) (hL : ∀ c ∈ L, isUpperAZ c = true) :
    ∀ a : Nat,
      L.foldl (fun x c => x * 26 + ((c.toNat : Int) - 64)) (a : Int) =
        ((L.foldl (fun x c => x * 26 + (c.toNat - 64)) a : Nat) : Int) := by
  induction L with
  | nil => intro a; rfl
  | cons c L ih =>
    intro a
    have hc := isUpperAZ_toNat (hL c (List.mem_cons_self c L))
    have hcast : (a : Int) * 26 + ((c.toNat : Int) - 64) =
        ((a * 26 + (c.toNat - 64) : Nat) : Int) := by
      have h64 : (64 : Nat) ≤ c.toNat := by omega
      push_cast [Nat.cast_sub h64]
      ring
    simp only [List.foldl_cons, hcast]
    exact ih (fun d hdm => hL d (List.mem_cons_of_mem c hdm)) _

/-- The scan of `get_col_row_from_key` on a well-formed key: letters give
the base-26 column value, digits give the decimal row value. -/
lemma get_col_row_split (L D : List Char)
    (hL : ∀ c ∈ L, isUpperAZ c = true) (hD : ∀ c ∈ D, isDigit09 c = true) :
    get_col_row_from_key ⟨L ++ D⟩ = ((letterValN L : Int), digitsValN D) := by
  show (L ++ D).foldl keyFoldStep (0, 0) = _
  rw [List.foldl_append, keyFold_letters L hL 0 0]
  have h0 : ((0 : Nat) : Int) = (0 : Int) := rfl
  rw [← h0, letterFoldInt_cast L hL 0]
  rw [keyFold_digits D hD _ 0]
  rfl

/-! ### The base-26 letter encoding inverts the letter value -/

lemma letterValN_append (L : List Char) (c : Char) :
    letterValN (L ++ [c]) = letterValN L * 26 + (c.toNat - 64) := by
  simp [letterValN, List.foldl_append]

lemma colNameAux_letterValN (L : List Char)
    (hL : ∀ c ∈ L, isUpperAZ c = true) : colNameAux (letterValN L) = L := by
  induction L using List.reverseRecOn with
  | nil => rfl
  | append_singleton L c ih =>
    have hc := isUpperAZ_toNat (c := c) (by
      exact hL c (by simp))
    have hL' : ∀ d ∈ L, isUpperAZ d = true := fun d hdm => hL d (by simp [hdm])
    rw [letterValN_append]
    set A := letterValN L with hA
    have hv1 : 1 ≤ c.toNat - 64 := by omega
    have hv26 : c.toNat - 64 ≤ 26 := by omega
    have hpos : 1 ≤ A * 26 + (c.toNat - 64) := by omega
    obtain ⟨m, hm⟩ : ∃ m, A * 26 + (c.toNat - 64) = m + 1 :=
      ⟨A * 26 + (c.toNat - 64) - 1, by omega⟩
    rw [hm, colNameAux_succ]
    have hdiv : m / 26 = A := by omega
    have hmod : m % 26 + 65 = c.toNat := by omega
    rw [hdiv, hmod, Char.ofNat_toNat, ih hL']

lemma letterValN_pos (L : List Char) (hne : L ≠ [])
    (hL : ∀ c ∈ L, isUpperAZ c = true) : 1 ≤ letterValN L := by
  induction L using List.reverseRecOn with
  | nil => exact absurd rfl hne
  | append_singleton L c _ =>
    have hc := isUpperAZ_toNat (c := c) (hL c (by simp))
    rw [letterValN_append]
    omega

/-! ### The decimal rendering inverts the digit value on canonical digit runs -/

lemma digitsValN_append (D : List Char) (c : Char) :
    digitsValN (D ++ [c]) = digitsValN D * 10 + (c.toNat - 48) := by
  simp [digitsValN, List.foldl_append]

lemma decAux_digitsValN (D : List Char) (hne : D ≠ [])
    (hD : ∀ c ∈ D, isDigit09 c = true) (hhead : D.head? ≠ some '0') :
    decAux (digitsValN D) = D ∧ 1 ≤ digitsValN D := by
  induction D using List.reverseRecOn with
  | nil => exact absurd rfl hne
  | append_singleton D c ih =>
    have hc := isDigit09_toNat (c := c) (hD c (by simp))
    have hD' : ∀ d ∈ D, isDigit09 d = true := fun d hdm => hD d (by simp [hdm])
    rw [digitsValN_append]
    rcases eq_or_ne D [] with hDnil | hDne
    · subst hDnil
      have hc0 : c ≠ '0' := by
        intro hc0
        apply hhead
        simp [hc0]
      have hcne : c.toNat ≠ 48 := fun hx => hc0 (char_toNat_inj (c := c) (d := '0') hx)
      have hv1 : 1 ≤ c.toNat - 48 := by omega
      have hv9 : c.toNat - 48 ≤ 9 := by omega
      obtain ⟨m, hm⟩ : ∃ m, digitsValN [] * 10 + (c.toNat - 48) = m + 1 :=
        ⟨c.toNat - 48 - 1, by simp [digitsValN]; omega⟩
      rw [hm, decAux_succ]
      have hmlt : m + 1 ≤ 9 := by
        have : digitsValN [] = 0 := rfl
        omega
      have hdiv : (m + 1) / 10 = 0 := by omega
      have hmod : (m + 1) % 10 + 48 = c.toNat := by
        have : digitsValN [] = 0 := rfl
        omega
      rw [hdiv, hmod, Char.ofNat_toNat]
      refine ⟨?_, by omega⟩
      show decGo 0 0 ++ [c] = [] ++ [c]
      rfl
    · have hhead' : D.head? ≠ some '0' := by
        rcases List.exists_cons_of_ne_nil hDne with ⟨d, D', hd⟩
        subst hd
        simpa using hhead
      obtain ⟨ihe, ihpos⟩ := ih hDne hD' hhead'
      set A := digitsValN D with hA
      have hv9 : c.toNat - 48 ≤ 9 := by omega
      obtain ⟨m, hm⟩ : ∃ m, A * 10 + (c.toNat - 48) = m + 1 :=
        ⟨A * 10 + (c.toNat - 48) - 1, by omega⟩
      rw [hm, decAux_succ]
      have hdiv : (m + 1) / 10 = A := by omega
      have hmod : (m + 1) % 10 + 48 = c.toNat := by omega
      rw [hdiv, hmod, Char.ofNat_toNat, ihe]
      exact ⟨rfl, by omega⟩

/-- Canonical digit runs (no leading zero, or the single digit `0`)
render back to themselves. -/
lemma decRepr_digitsValN (D : List Char) (hne : D ≠ [])
    (hD : ∀ c ∈ D, isDigit09 c = true)
    (hcanon : D.head? ≠ some '0' ∨ D = ['0']) :
    decRepr (digitsValN D) = D := by
  rcases hcanon with hhead | h0
  · obtain ⟨he, hpos⟩ := decAux_digitsValN D hne hD hhead
    rw [decRepr, if_neg (by omega), he]
  · subst h0
    rfl

/-! ### C9: `index_to_col` agrees with `get_column_name` -/

lemma indexToColAux_eq_colNameAux : ∀ k, 1 ≤ k → indexToColAux (k - 1) = colNameAux k := by
  intro k
  induction k using Nat.strong_induction_on with
  | _ k ih =>
    intro hk
    obtain ⟨m, rfl⟩ : ∃ m, k = m + 1 := ⟨k - 1, by omega⟩
    rw [colNameAux_succ, Nat.add_sub_cancel, indexToColAux_eq]
    by_cases h26 : 26 ≤ m
    · have hdiv1 : 1 ≤ m / 26 := (Nat.one_le_div_iff (by decide)).mpr h26
      have hlt : m / 26 < m + 1 := by
        have := Nat.div_le_self m 26
        omega
      rw [if_pos h26, ih (m / 26) hlt hdiv1]
    · have hdiv0 : m / 26 = 0 := Nat.div_eq_of_lt (by omega)
      rw [if_neg h26, hdiv0]
      rfl

/-- C9: for every positive column index, `index_to_col` and
`get_column_name` produce the same column-letter string — the two base-26
encodings with different indexing conventions are extensionally equal. -/
theorem index_to_col_eq_get_column_name (n : Int) (h : 1 ≤ n) :
    index_to_col n = get_column_name n := by
  rw [index_to_col, if_neg (by omega), get_column_name]
  have hpos : 1 ≤ n.toNat := by omega
  have htn : (n - 1).toNat = n.toNat - 1 := by omega
  rw [htn, indexToColAux_eq_colNameAux n.toNat hpos]

/-- Witness for C9 at the concrete index 703 (column `AAA`). -/
theorem index_to_col_eq_get_column_name_witness :
    index_to_col 703 = get_column_name 703 :=
  index_to_col_eq_get_column_name 703 (by decide)

/-! ### C1: key → (col, row) → key round trip -/

/-- C1 (amended): a cell key made of a non-empty run of uppercase letters
followed by a non-empty run of digits round-trips through
`get_col_row_from_key` and `get_key_from_col_row` provided the digit run
is the canonical decimal form of the row (no leading zero; the single
digit `0` is also canonical).  The counterexample
`get_key_roundtrip_counterexample` shows the restriction is necessary:
the claim fails for keys with a leading zero in the row, such as
`"A01"`. -/
theorem get_key_roundtrip (k : String) (L D : List Char)
    (hk : k.toList = L ++ D) (_hL : L ≠ []) (hLu : ∀ c ∈ L, isUpperAZ c = true)
    (hD : D ≠ []) (hDd : ∀ c ∈ D, isDigit09 c = true)
    (hcanon : D.head? ≠ some '0' ∨ D = ['0']) :
    get_key_from_col_row (get_col_row_from_key k).1 (get_col_row_from_key k).2 = k := by
  have hkmk : k = ⟨L ++ D⟩ := by
    cases k
    exact congrArg String.mk (by simpa using hk)
  subst hkmk
  rw [get_col_row_split L D hLu hDd]
  show get_column_name (letterValN L : Int) ++ (⟨decRepr (digitsValN D)⟩ : String) = _
  rw [get_column_name, Int.toNat_natCast, colNameAux_letterValN L hLu,
    decRepr_digitsValN D hD hDd hcanon]
  rfl

/-- Witness for C1 (amended) at the concrete key `"BC45"`. -/
theorem get_key_roundtrip_witness :
    get_key_from_col_row (get_col_row_from_key ("BC45")).1
      (get_col_row_from_key ("BC45")).2 = "BC45" :=
  get_key_roundtrip ("BC45") ['B', 'C'] ['4', '5'] (by decide) (by decide)
    (by decide) (by decide) (by decide) (by decide)

/-- C1 as literally stated is false: `"A01"` is a valid cell key (it
matches `^[A-Z]+[0-9]+$`) but converting it to `(1, 1)` and back yields
`"A1"`, not `"A01"`. -/
theorem get_key_roundtrip_counterexample :
    isCellReference ("A01") = true ∧
      get_key_from_col_row (get_col_row_from_key ("A01")).1
        (get_col_row_from_key ("A01")).2 = "A1" ∧
      ("A1" : String) ≠ "A01" := by
  refine ⟨by decide, ?_, by decide⟩
  decide

/-! ### C7: `shorten` -/

/-- Python's slice `s[:k]` for a possibly negative `k`: a negative index
counts from the end, and out-of-range indices clamp. -/
def pyTake (cs : List Char) (k : Int) : List Char :=
  if k < 0 then cs.take (((cs.length : Int) + k).toNat) else cs.take k.toNat

/-- Python's slice `s[k:]` for a possibly negative `k`. -/
def pyDrop (cs : List Char) (k : Int) : List Char :=
  if k < 0 then cs.drop (((cs.length : Int) + k).toNat) else cs.drop k.toNat

/-- `api.shorten`: the f-string
`f"{s[:length - 3]}{s[length - 3:] and '...'}"` — the first `length - 3`
characters, followed by `"..."` exactly when the rest of the string is
non-empty (a non-empty string is truthy, so `rest and '...'` is `'...'`;
an empty rest renders as the empty string). -/
def shorten (s : String) (length : Int) : String :=
  ⟨pyTake s.toList (length - 3)⟩ ++
    (if pyDrop s.toList (length - 3) = [] then "" else "...")

/-- C7 (amended): for a length of at least 3, `shorten` returns the whole
string unchanged when it fits within `length - 3` characters, and
otherwise returns the first `length - 3` characters followed by `"..."`,
for a total of exactly `length` characters — so the output never exceeds
`length` characters, but the ellipsis appears whenever the string exceeds
the `length - 3` budget, not only when it exceeds `length` itself (see
`shorten_counterexample`). -/
theorem shorten_spec (s : String) (n : Nat) (h3 : 3 ≤ n) :
    (s.length ≤ n - 3 → shorten s (n : Int) = s) ∧
      (n - 3 < s.length →
        shorten s (n : Int) = (⟨s.toList.take (n - 3)⟩ : String) ++ "..." ∧
          (shorten s (n : Int)).length = n) ∧
      (shorten s (n : Int)).length ≤ n := by
  have hk : ((n : Int) - 3) = ((n - 3 : Nat) : Int) := by omega
  have hknn : ¬ ((n : Int) - 3 < 0) := by omega
  have hlen : s.length = s.toList.length := by
    rfl
  have htake : pyTake s.toList ((n : Int) - 3) = s.toList.take (n - 3) := by
    rw [pyTake, if_neg hknn, hk, Int.toNat_natCast]
  have hdrop : pyDrop s.toList ((n : Int) - 3) = s.toList.drop (n - 3) := by
    rw [pyDrop, if_neg hknn, hk, Int.toNat_natCast]
  refine ⟨?_, ?_, ?_⟩
  · intro hfit
    have hdnil : s.toList.drop (n - 3) = [] := by
      rw [List.drop_eq_nil_iff]
      omega
    have htall : s.toList.take (n - 3) = s.toList := by
      rw [List.take_of_length_le]
      omega
    rw [shorten, htake, hdrop, hdnil, if_pos rfl, htall]
    show (⟨s.toList⟩ : String) ++ "" = s
    cases s with
    | mk l => exact congrArg String.mk (List.append_nil l)
  · intro hover
    have hdne : s.toList.drop (n - 3) ≠ [] := by
      rw [Ne, List.drop_eq_nil_iff]
      omega
    constructor
    · rw [shorten, htake, hdrop, if_neg hdne]
    · rw [shorten, htake, hdrop, if_neg hdne]
      have h1 : ((⟨s.toList.take (n - 3)⟩ : String) ++ "...").length =
          (s.toList.take (n - 3)).length + 3 := by
        show (s.toList.take (n - 3) ++ "...".toList).length = _
        rw [List.length_append]
        rfl
      rw [h1, List.length_take]
      omega
  · by_cases hfit : s.length ≤ n - 3
    · have hdnil : s.toList.drop (n - 3) = [] := by
        rw [List.drop_eq_nil_iff]
        omega
      rw [shorten, htake, hdrop, hdnil, if_pos rfl]
      have : ((⟨s.toList.take (n - 3)⟩ : String) ++ "").length =
          (s.toList.take (n - 3)).length := by
        show (s.toList.take (n - 3) ++ []).length = _
        rw [List.append_nil]
      rw [this, List.length_take]
      omega
    · have hdne : s.toList.drop (n - 3) ≠ [] := by
        rw [Ne, List.drop_eq_nil_iff]
        omega
      rw [shorten, htake, hdrop, if_neg hdne]
      have h1 : ((⟨s.toList.take (n - 3)⟩ : String) ++ "...").length =
          (s.toList.take (n - 3)).length + 3 := by
        show (s.toList.take (n - 3) ++ "...".toList).length = _
        rw [List.length_append]
        rfl
      rw [h1, List.length_take]
      omega

/-- Witness for C7 (amended) at the two examples named by the claim:
`shorten "abcdefghij" 5 = "ab..."` and `shorten "ab" 5 = "ab"`. -/
theorem shorten_spec_witness :
    (("ab" : String).length ≤ 5 - 3 → shorten ("ab") ((5 : Nat) : Int) = "ab") ∧
      (5 - 3 < ("abcdefghij" : String).length →
        shorten ("abcdefghij") ((5 : Nat) : Int) =
            (⟨("abcdefghij" : String).toList.take (5 - 3)⟩ : String) ++ "..." ∧
          (shorten ("abcdefghij") ((5 : Nat) : Int)).length = 5) :=
  ⟨(shorten_spec ("ab") 5 (by decide)).1,
   (shorten_spec ("abcdefghij") 5 (by decide)).2.1⟩

/-- C7 as literally stated is false: `"abcd"` already fits in 5
characters, yet `shorten "abcd" 5 = "ab..."` truncates it and appends an
ellipsis. -/
theorem shorten_counterexample :
    ("abcd" : String).length ≤ 5 ∧ shorten ("abcd") 5 = "ab..." ∧
      ("ab..." : String) ≠ "abcd" := by
  refine ⟨by decide, ?_, by decide⟩
  decide

/-! ### C6: `SplitPane.layout` -/

/-- Geometry of a split pane, the state touched by
`widgets.SplitPane.layout`: the measured widths of the container and the
divider are inputs; the sizes written to the two panes, the divider
position, and the persisted ratio are outputs.  Sizes are exact rationals
(the Python code computes with floats but the layout formula itself is
plain field arithmetic). -/
structure SplitPaneState where
  ratio : ℚ
  containerWidth : ℚ
  middleWidth : ℚ
  firstSize : ℚ
  lastSize : ℚ
  middlePos : ℚ
  storedRatio : Option ℚ

/-- `widgets.HorizontalSplitPane.get_size` (and its vertical twin):
`max(1, x.width())` — a measured size is clamped below by 1. -/
def get_size (w : ℚ) : ℚ := max 1 w

/-- `widgets.SplitPane.layout`: reads `size = get_size(self)` and
`middle = get_size(self.middle)`, sets the first pane to
`ratio * size + middle` and the last pane to
`(1 - ratio) * size - middle`, resets the divider position to 0, and
persists the ratio. -/
def SplitPane.layout (p : SplitPaneState) : SplitPaneState :=
  let size := get_size p.containerWidth
  let middle := get_size p.middleWidth
  { p with
      firstSize := p.ratio * size + middle
      lastSize := (1 - p.ratio) * size - middle
      middlePos := 0
      storedRatio := some p.ratio }

/-- C6 (amended): `layout()` sets the first pane to `r*T + d` and the
last pane to `(1-r)*T - d` where `T` and `d` are the *clamped* container
and divider sizes `max(1, ·)`; in particular the claim's formula holds
verbatim whenever the measured container and divider sizes are at least
1.  With a divider of measured size 0 the effective divider size is 1,
so container 100 / divider 0 / ratio 0.3 yields 31 and 69, not 30 and 70
(see `splitpane_layout_counterexample`). -/
theorem splitpane_layout (r T d f l m : ℚ) (st : Option ℚ)
    (hT : 1 ≤ T) (hd : 1 ≤ d) :
    (SplitPane.layout ⟨r, T, d, f, l, m, st⟩).firstSize = r * T + d ∧
      (SplitPane.layout ⟨r, T, d, f, l, m, st⟩).lastSize = (1 - r) * T - d := by
  have hT' : get_size T = T := max_eq_right hT
  have hd' : get_size d = d := max_eq_right hd
  constructor
  · show r * get_size T + get_size d = r * T + d
    rw [hT', hd']
  · show (1 - r) * get_size T - get_size d = (1 - r) * T - d
    rw [hT', hd']

/-- Witness for C6 (amended) at container 100, divider 1, ratio 0.3:
pane sizes 31 and 69. -/
theorem splitpane_layout_witness :
    (SplitPane.layout ⟨0.3, 100, 1, 0, 0, 0, none⟩).firstSize = 0.3 * 100 + 1 ∧
      (SplitPane.layout ⟨0.3, 100, 1, 0, 0, 0, none⟩).lastSize =
        (1 - 0.3) * 100 - 1 :=
  splitpane_layout 0.3 100 1 0 0 0 none (by norm_num) (by norm_num)

/-- C6 as literally stated is false at its own concrete example: with
container size 100, divider size 0 and ratio 0.3, `layout()` sets the
first pane to 31 (because `get_size` clamps the divider's measured size
0 up to 1), not 30, and the last pane to 69, not 70. -/
theorem splitpane_layout_counterexample :
    (SplitPane.layout ⟨0.3, 100, 0, 0, 0, 0, none⟩).firstSize = 31 ∧
      (SplitPane.layout ⟨0.3, 100, 0, 0, 0, 0, none⟩).lastSize = 69 ∧
      (31 : ℚ) ≠ 0.3 * 100 ∧ (69 : ℚ) ≠ (1 - 0.3) * 100 := by
  refine ⟨?_, ?_, by norm_num, by norm_num⟩
  · show (0.3 : ℚ) * get_size 100 + get_size 0 = 31
    rw [get_size, get_size]
    norm_num
  · show (1 - 0.3 : ℚ) * get_size 100 - get_size 0 = 69
    rw [get_size, get_size]
    norm_num

/-! ### C2: the trampoline's cache-checked fetch -/

/-- The `network_cache` dict: url → (timestamp, body text).  Modelled as
an association list with at most one binding per key; `time.time()`
values are exact rationals. -/
def Cache : Type := List (String × ℚ × String)

/-- Dict lookup `network_cache[url]` (with the `url in network_cache`
containment check folded in as `Option`). -/
def cacheGet : Cache → String → Option (ℚ × String)
  | [], _ => none
  | e :: es, u => if e.1 == u then some e.2 else cacheGet es u

/-- Dict assignment `network_cache[url] = (now, value)`: replace the
existing binding in place, or append a new one. -/
def cacheSet : Cache → String → ℚ × String → Cache
  | [], u, v => [(u, v)]
  | e :: es, u, v => if e.1 == u then (u, v) :: es else e :: cacheSet es u v

/-- The XHR leg of `get`: on a non-200 status raise
`IOError(f"HTTP Error: {status} for {url}")`, otherwise record
`(now, responseText)` in the cache and return the body.  The `Bool`
records whether an HTTP request was issued. -/
def trampolineFetch (c : Cache) (now : ℚ) (url : String) (status : Nat)
    (body : String) : Except String String × Cache × Bool :=
  if status ≠ 200 then
    (.error ("HTTP Error: " ++ toString status ++ " for " ++ url), c, true)
  else
    (.ok body, cacheSet c url (now, body), true)

/-- The inner `get` of `api.load_with_trampoline`: return the cached body
without any request if the entry is younger than 60 seconds, otherwise
fall through to the fetch.  `now` is the current `time.time()`; `status`
and `body` are what the HTTP GET would observe. -/
def load_with_trampoline_get (c : Cache) (now : ℚ) (url : String)
    (status : Nat) (body : String) : Except String String × Cache × Bool :=
  match cacheGet c url with
  | some pv =>
    if now - pv.1 < 60 then (.ok pv.2, c, false)
    else trampolineFetch c now url status body
  | none => trampolineFetch c now url status body

lemma cacheGet_cacheSet_same (c : Cache) (u : String) (v : ℚ × String) :
    cacheGet (cacheSet c u v) u = some v := by
  induction c with
  | nil => simp [cacheSet, cacheGet]
  | cons e es ih =>
    by_cases he : e.1 == u
    · simp [cacheSet, cacheGet, he]
    · simp only [cacheSet, he, Bool.false_eq_true, if_false, cacheGet, ih]

lemma cacheGet_cacheSet_other (c : Cache) (u u' : String) (v : ℚ × String)
    (hne : u' ≠ u) : cacheGet (cacheSet c u v) u' = cacheGet c u' := by
  induction c with
  | nil =>
    have : ¬ (u == u') := by simpa [beq_iff_eq] using fun h => hne h.symm
    simp [cacheSet, cacheGet, this]
  | cons e es ih =>
    by_cases he : e.1 == u
    · have heq : e.1 = u := by simpa [beq_iff_eq] using he
      have : ¬ (u == u') := by simpa [beq_iff_eq] using fun h => hne h.symm
      simp [cacheSet, cacheGet, he, this, heq]
    · simp only [cacheSet, he, Bool.false_eq_true, if_false, cacheGet, ih]

/-- C2: the cache-checked contract of the trampoline's inner `get`.
A fresh cache entry (younger than 60 seconds) is returned without any
HTTP request and without touching the cache; otherwise a GET is issued:
a non-200 status raises an `IOError` naming the status and url and
leaves the cache unchanged, while a 200 status stores `(now, body)` for
this url (and no other key) and returns the body. -/
theorem load_with_trampoline_get_contract (c : Cache) (now : ℚ) (url : String)
    (status : Nat) (body : String) :
    (∀ twhen v, cacheGet c url = some (twhen, v) → now - twhen < 60 →
      load_with_trampoline_get c now url status body = (.ok v, c, false)) ∧
      ((cacheGet c url = none ∨
          ∀ twhen v, cacheGet c url = some (twhen, v) → 60 ≤ now - twhen) →
        (status ≠ 200 →
          load_with_trampoline_get c now url status body =
            (.error ("HTTP Error: " ++ toString status ++ " for " ++ url), c, true)) ∧
          (status = 200 →
            load_with_trampoline_get c now url status body =
                (.ok body, cacheSet c url (now, body), true) ∧
              cacheGet (cacheSet c url (now, body)) url = some (now, body) ∧
              ∀ u', u' ≠ url →
                cacheGet (cacheSet c url (now, body)) u' = cacheGet c u')) := by
  constructor
  · intro twhen v hhit hfresh
    rw [load_with_trampoline_get, hhit]
    simp only [if_pos hfresh]
  · intro hmiss
    constructor
    · intro hbad
      have hfetch : trampolineFetch c now url status body =
          (.error ("HTTP Error: " ++ toString status ++ " for " ++ url), c, true) := by
        rw [trampolineFetch, if_pos hbad]
      rcases hget : cacheGet c url with _ | ⟨twhen, v⟩
      · simp only [load_with_trampoline_get, hget]
        exact hfetch
      · rcases hmiss with hnone | hstale
        · rw [hget] at hnone
          exact absurd hnone (by simp)
        · have hge := hstale twhen v hget
          simp only [load_with_trampoline_get, hget]
          rw [if_neg (not_lt.mpr hge)]
          exact hfetch
    · intro hok
      have hfetch : trampolineFetch c now url status body =
          (.ok body, cacheSet c url (now, body), true) := by
        rw [trampolineFetch, if_neg (fun hc => hc hok)]
      refine ⟨?_, cacheGet_cacheSet_same c url (now, body),
        fun u' hu' => cacheGet_cacheSet_other c url u' (now, body) hu'⟩
      rcases hget : cacheGet c url with _ | ⟨twhen, v⟩
      · simp only [load_with_trampoline_get, hget]
        exact hfetch
      · rcases hmiss with hnone | hstale
        · rw [hget] at hnone
          exact absurd hnone (by simp)
        · have hge := hstale twhen v hget
          simp only [load_with_trampoline_get, hget]
          rw [if_neg (not_lt.mpr hge)]
          exact hfetch

/-- Witness for C2: an empty cache issues a request and stores the body;
a second call to the same url 30 seconds later returns the cached body
with no request and no cache change; a failing url raises the IOError
text and leaves the empty cache empty. -/
theorem load_with_trampoline_get_witness :
    load_with_trampoline_get [] 100 ("http://x") 200 ("BODY") =
        (.ok "BODY", [("http://x", 100, "BODY")], true) ∧
      load_with_trampoline_get [("http://x", 100, "BODY")] 130 ("http://x")
          404 ("ignored") = (.ok "BODY", [("http://x", 100, "BODY")], false) ∧
      load_with_trampoline_get [] 100 ("http://y") 404 ("nope") =
        (.error ("HTTP Error: " ++ toString 404 ++ " for " ++ "http://y"), [], true) := by
  refine ⟨?_, ?_, ?_⟩
  · have h := (load_with_trampoline_get_contract [] 100 ("http://x") 200
      ("BODY")).2 (Or.inl rfl)
    exact (h.2 rfl).1
  · exact (load_with_trampoline_get_contract [("http://x", 100, "BODY")] 130
      ("http://x") 404 ("ignored")).1 100 ("BODY") rfl (by norm_num)
  · exact ((load_with_trampoline_get_contract [] 100 ("http://y") 404
      ("nope")).2 (Or.inl rfl)).1 (by omega)

/-! ### C8: `history.undo` -/

/-- An edit as the history module sees it: `edit.undo(sheet)` returns a
success flag and may mutate the sheet, modelled as a function from the
sheet state to the flag and the new sheet state. -/
def Edit (σ : Type) : Type := σ → Bool × σ

/-- The `while history:` loop of `history.undo`, processing the popped
edits in pop order (most recent first); returns the edits never popped,
the final sheet state, and the number of `schedule_flush()` calls. -/
def undoAux {σ : Type} : List (Edit σ) → σ → List (Edit σ) × σ × Nat
  | [], s => ([], s, 0)
  | e :: rest, s =>
    let r := e s
    if r.1 then (rest, r.2, 1) else undoAux rest r.2

/-- `history.undo(sheet)`: the history list keeps the oldest edit first
(as Python's `list.append`/`list.pop` does), so the loop runs over the
reversed list. -/
def history_undo {σ : Type} (h : List (Edit σ)) (s : σ) :
    List (Edit σ) × σ × Nat :=
  let r := undoAux h.reverse s
  (r.1.reverse, r.2)

/-- The claim's narrative as a relation on the pop-order edit list:
starting from sheet `s`, popping the given edits either exhausts the log
with no successful undo and no flush, or discards failing undos until
the first success, which stops the loop with exactly one flush. -/
inductive PopsTo {σ : Type} : σ → List (Edit σ) → List (Edit σ) → σ → Nat → Prop where
  | nil (s : σ) : PopsTo s [] [] s 0
  | success (s : σ) (e : Edit σ) (rest : List (Edit σ)) (h : (e s).1 = true) :
      PopsTo s (e :: rest) rest (e s).2 1
  | failure (s : σ) (e : Edit σ) (rest out : List (Edit σ)) (s' : σ) (f : Nat)
      (h : (e s).1 = false) (tail : PopsTo (e s).2 rest out s' f) :
      PopsTo s (e :: rest) out s' f

lemma undoAux_popsTo {σ : Type} (l : List (Edit σ)) (s : σ) :
    PopsTo s l (undoAux l s).1 (undoAux l s).2.1 (undoAux l s).2.2 := by
  induction l generalizing s with
  | nil => exact PopsTo.nil s
  | cons e rest ih =>
    by_cases hb : (e s).1
    · have : undoAux (e :: rest) s = (rest, (e s).2, 1) := by
        simp [undoAux, hb]
      rw [this]
      exact PopsTo.success s e rest hb
    · have : undoAux (e :: rest) s = undoAux rest (e s).2 := by
        simp [undoAux, hb]
      rw [this]
      exact PopsTo.failure s e rest _ _ _ (by simpa using hb) (ih ((e s).2))

lemma undoAux_suffix {σ : Type} (l : List (Edit σ)) (s : σ) :
    ∃ k, (undoAux l s).1 = l.drop k := by
  induction l generalizing s with
  | nil => exact ⟨0, rfl⟩
  | cons e rest ih =>
    by_cases hb : (e s).1
    · refine ⟨1, ?_⟩
      simp [undoAux, hb]
    · obtain ⟨k, hk⟩ := ih ((e s).2)
      refine ⟨k + 1, ?_⟩
      simp [undoAux, hb, hk]

/-- C8: `undo` pops edits from the most recent backward (the claim's
narrative is the `PopsTo` relation on the reversed log), schedules at
most one flush — exactly one iff some popped undo succeeded, none if the
log empties without a success — and the remaining log is what is left of
the original after removing the popped suffix.  The concrete conjunct is
the spec's example: three edits whose two most recent undos fail and
whose oldest succeeds leave an empty log, and exactly one flush. -/
theorem history_undo_spec :
    (∀ (σ : Type) (h : List (Edit σ)) (s : σ),
      PopsTo s h.reverse ((history_undo h s).1).reverse
          (history_undo h s).2.1 (history_undo h s).2.2 ∧
        (history_undo h s).2.2 ≤ 1 ∧
        ∃ popped, h = (history_undo h s).1 ++ popped) ∧
      history_undo [fun s => (true, s), fun s => (false, s), fun s => (false, s)]
          (0 : Nat) = ([], 0, 1) := by
  constructor
  · intro σ h s
    refine ⟨?_, ?_, ?_⟩
    · show PopsTo s h.reverse ((undoAux h.reverse s).1.reverse).reverse _ _
      rw [List.reverse_reverse]
      exact undoAux_popsTo h.reverse s
    · obtain hrel := undoAux_popsTo h.reverse s
      show (undoAux h.reverse s).2.2 ≤ 1
      clear hrel
      generalize h.reverse = l
      induction l generalizing s with
      | nil => simp [undoAux]
      | cons e rest ih =>
        by_cases hb : (e s).1
        · simp [undoAux, hb]
        · simpa [undoAux, hb] using ih ((e s).2)
    · obtain ⟨k, hk⟩ := undoAux_suffix h.reverse s
      refine ⟨(h.reverse.take k).reverse, ?_⟩
      show h = (undoAux h.reverse s).1.reverse ++ (h.reverse.take k).reverse
      rw [hk, ← List.reverse_append, List.take_append_drop, List.reverse_reverse]
  · rfl

/-! ### Range helpers shared by the data facades and the input finder -/

/-- Python's `range(a, b)` over `Int`. -/
def intRange (a b : Int) : List Int :=
  (List.range (b - a).toNat).map (fun (i : Nat) => a + (i : Int))

/-- Python's `range(a, b)` over `Nat`. -/
def natRange (a b : Nat) : List Nat :=
  (List.range (b - a)).map (fun i => a + i)

lemma mem_intRange {a b x : Int} : x ∈ intRange a b ↔ a ≤ x ∧ x < b := by
  constructor
  · intro hx
    rcases List.mem_map.mp hx with ⟨i, hi, rfl⟩
    rw [List.mem_range] at hi
    have h3 : (0 : Int) ≤ (i : Int) := Int.natCast_nonneg i
    rcases le_or_lt (b - a) 0 with hba | hba
    · rw [Int.toNat_of_nonpos hba] at hi
      omega
    · have hba2 : ((b - a).toNat : Int) = b - a := Int.toNat_of_nonneg (le_of_lt hba)
      have h1 : (i : Int) < b - a := by
        rw [← hba2]
        exact_mod_cast hi
      omega
  · rintro ⟨h1, h2⟩
    apply List.mem_map.mpr
    refine ⟨(x - a).toNat, ?_, ?_⟩
    · rw [List.mem_range]
      have hxa : ((x - a).toNat : Int) = x - a := Int.toNat_of_nonneg (by omega)
      have hba : ((b - a).toNat : Int) = b - a := Int.toNat_of_nonneg (by omega)
      have hc : ((x - a).toNat : Int) < ((b - a).toNat : Int) := by
        rw [hxa, hba]
        omega
      exact_mod_cast hc
    · have hxa : ((x - a).toNat : Int) = x - a := Int.toNat_of_nonneg (by omega)
      rw [hxa]
      ring

lemma mem_natRange {a b x : Nat} : x ∈ natRange a b ↔ a ≤ x ∧ x < b := by
  simp only [natRange, List.mem_map, List.mem_range]
  constructor
  · rintro ⟨i, hi, rfl⟩
    omega
  · rintro ⟨h1, h2⟩
    exact ⟨x - a, by omega, by omega⟩

/-- Python's `s.split(sep)` for a single-character separator, on the
character list; the empty string yields `[""]`. -/
def splitOnChar (sep : Char) : List Char → List (List Char)
  | [] => [[]]
  | c :: cs =>
    match splitOnChar sep cs with
    | [] => [[]]
    | g :: gs => if c = sep then [] :: g :: gs else (c :: g) :: gs

/-- Python's `f"{i}"` for an `int`. -/
def intRepr (i : Int) : String :=
  if i < 0 then "-" ++ (⟨decRepr (-i).toNat⟩ : String) else (⟨decRepr i.toNat⟩ : String)

/-- `selection.split(":")` as a list of strings. -/
def splitColon (s : String) : List String :=
  (splitOnChar ':' s.toList).map (fun l => (⟨l⟩ : String))

/-! ### C4: `intercept_last_expression` -/

/-- The statement kinds `intercept_last_expression` distinguishes:
`ast.Expr` (a bare expression statement), `ast.Assign`, and every other
statement kind. -/
inductive StmtKind where
  | exprStmt
  | assign
  | otherStmt
deriving DecidableEq

/-- A top-level statement as the rewrite sees it: its kind and its
1-based start line number (`ast`'s `lineno`). -/
structure Stmt where
  kind : StmtKind
  lineno : Nat
deriving DecidableEq

/-- `script.split("\n")` as a list of lines. -/
def pySplitLines (s : String) : List String :=
  (splitOnChar (Char.ofNat 10) s.toList).map (fun l => (⟨l⟩ : String))

/-- Python's `"\n".join(lines)`. -/
def joinLines : List String → String
  | [] => ""
  | [s] => s
  | s :: rest => s ++ (⟨[Char.ofNat 10]⟩ : String) ++ joinLines rest

/-- `api.intercept_last_expression`: an empty script returns `""`
untouched; otherwise the script is parsed (the parse result is the
`body` argument here, since the Python parser itself is external) and the
line on which the last statement starts is prefixed with `_ = ` when
that statement is an expression or an assignment, else a final line
`_ = None` is appended.  An empty statement list makes `tree.body[-1]`
raise, modelled as `none`. -/
def intercept_last_expression (script : String) (body : List Stmt) :
    Option String :=
  if script = "" then some ""
  else
    match body.getLast? with
    | none => none
    | some last =>
      let lines := pySplitLines script
      if last.kind = .exprStmt ∨ last.kind = .assign then
        some (joinLines
          (lines.set (last.lineno - 1) ("_ = " ++ lines.getD (last.lineno - 1) "")))
      else
        some (joinLines (lines ++ ["_ = None"]))

/-- C4: the empty script yields the empty string; when the last top-level
statement is a bare expression or an assignment, exactly the line it
starts on is prefixed with `_ = ` and every other line is unchanged;
any other last-statement kind appends a new final line `_ = None`; and
the two spec examples: `x+1` becomes `_ = x+1`, and `if x: y()` becomes
itself plus an appended `_ = None` line. -/
theorem intercept_last_expression_spec :
    (∀ body, intercept_last_expression ("") body = some "") ∧
      (∀ script body last, script ≠ "" → body.getLast? = some last →
        (last.kind = .exprStmt ∨ last.kind = .assign) →
        last.lineno - 1 < (pySplitLines script).length →
        ∃ lines', intercept_last_expression script body =
            some (joinLines lines') ∧
          lines'.length = (pySplitLines script).length ∧
          lines'[last.lineno - 1]? =
            some ("_ = " ++ (pySplitLines script).getD (last.lineno - 1) "") ∧
          ∀ i, i ≠ last.lineno - 1 → lines'[i]? = (pySplitLines script)[i]?) ∧
      (∀ script body last, script ≠ "" → body.getLast? = some last →
        ¬(last.kind = .exprStmt ∨ last.kind = .assign) →
        intercept_last_expression script body =
          some (joinLines (pySplitLines script ++ ["_ = None"]))) ∧
      intercept_last_expression ("x+1") [⟨.exprStmt, 1⟩] = some ("_ = x+1") ∧
      intercept_last_expression ("if x: y()") [⟨.otherStmt, 1⟩] =
        some ("if x: y()" ++ "\n" ++ "_ = None") := by
  refine ⟨fun body => rfl, ?_, ?_, ?_, ?_⟩
  · intro script body last hne hlast hkind hlt
    refine ⟨(pySplitLines script).set (last.lineno - 1)
      ("_ = " ++ (pySplitLines script).getD (last.lineno - 1) ""), ?_, ?_, ?_, ?_⟩
    · rw [intercept_last_expression, if_neg hne, hlast]
      simp only [if_pos hkind]
    · exact List.length_set _ _ _
    · exact List.getElem?_set_self hlt
    · intro i hi
      exact List.getElem?_set_ne (fun hx => hi hx.symm)
  · intro script body last hne hlast hkind
    rw [intercept_last_expression, if_neg hne, hlast]
    simp only [if_neg hkind]
  · rfl
  · rfl

/-! ### C5: the two `PySheets.sheet` variants -/

/-- Python dict assignment `data[header] = values`: replace the existing
binding in place or append a new one. -/
def dataSet : List (String × List String) → String → List String →
    List (String × List String)
  | [], k, v => [(k, v)]
  | e :: es, k, v => if e.1 == k then (k, v) :: es else e :: dataSet es k v

/-- The keys of one column of the current variant's selection:
`f"{index_to_col(col)}{row}"` for each row of the span. -/
def currentKeys (col : Int) (sr er : Nat) : List String :=
  (natRange sr (er + 1)).map (fun row => index_to_col col ++ (⟨decRepr row⟩ : String))

/-- The per-column loop of the current `PySheets.sheet`
(`src/static/api.py`): values are read with `self._inputs.get(key, "")`
— a missing key reads as the empty string — and with `headers` the first
value is popped off as the column header (raising on an empty column),
else the header is `f"col-{col}"`. -/
def currentCols (inputs : String → Option String) (sr er : Nat) (headers : Bool) :
    List Int → List (String × List String) →
      Except String (List (String × List String))
  | [], data => .ok data
  | col :: cols, data =>
    let values := (currentKeys col sr er).map (fun k => (inputs k).getD "")
    if headers then
      match values with
      | [] => .error "IndexError: pop from empty list"
      | h :: t => currentCols inputs sr er headers cols (dataSet data h t)
    else currentCols inputs sr er headers cols (dataSet data ("col-" ++ intRepr col) values)

/-- The current `PySheets.sheet`: split the selection on `:`, convert
both keys, assemble the per-column data, hand it to
`pd.DataFrame.from_dict` (the external `fromDict` parameter), and if the
result is not a genuine data frame (`isDF`, the `isinstance` check)
return the literal string `"Error: Incomplete Data"` instead of
raising. -/
def sheet_current (α : Type) (fromDict : List (String × List String) → α)
    (isDF : α → Bool) (inputs : String → Option String) (selection : String)
    (headers : Bool) : Except String (α ⊕ String) :=
  match splitColon selection with
  | [start, stop] =>
    let sc := (get_col_row_from_key start).1
    let sr := (get_col_row_from_key start).2
    let ec := (get_col_row_from_key stop).1
    let er := (get_col_row_from_key stop).2
    match currentCols inputs sr er headers (intRange sc (ec + 1)) [] with
    | .error e => .error e
    | .ok data =>
      let df := fromDict data
      if isDF df then .ok (.inl df) else .ok (.inr "Error: Incomplete Data")
  | _ => .error "ValueError: unpacking selection.split"

/-- The legacy `get_col_row` (`static/api.py`): find the first digit,
read the row from there to the end (`int` raises unless the tail is all
digits, folded into `none` here along with the fall-off-the-end `None`
return), and take the column from the single character before the first
digit (`key[index - 1]`, which is Python's `key[-1]`, the last
character, when the first character is already a digit). -/
def get_col_row (key : String) : Option (Int × Nat) :=
  let cs := key.toList
  match cs.findIdx? isDigit09 with
  | none => none
  | some i =>
    let digits := cs.drop i
    if digits.all isDigit09 then
      match (if i = 0 then cs.getLast? else cs[i - 1]?) with
      | none => none
      | some c => some ((c.toNat : Int) - 65 + 1, digitsValN digits)
    else none

/-- The keys of one column of the legacy selection:
`f"{chr(ord('A') + col - 1)}{row}"` — a single-letter column name. -/
def legacyKey (col : Int) (row : Nat) : String :=
  (⟨[Char.ofNat (64 + col).toNat]⟩ : String) ++ (⟨decRepr row⟩ : String)

/-- The strict lookups `[self.inputs[key] for key in keys]` of the legacy
variant: the first missing key raises `KeyError`. -/
def lookupAll (inputs : String → Option String) : List String →
    Except String (List String)
  | [] => .ok []
  | k :: ks =>
    match inputs k with
    | none => .error ("KeyError: " ++ k)
    | some v => (lookupAll inputs ks).map (fun vs => v :: vs)

/-- The per-column loop of the legacy `PySheets.sheet`: like the current
one but with strict lookups. -/
def legacyCols (inputs : String → Option String) (sr er : Nat) (headers : Bool) :
    List Int → List (String × List String) →
      Except String (List (String × List String))
  | [], data => .ok data
  | col :: cols, data =>
    match lookupAll inputs ((natRange sr (er + 1)).map (fun row => legacyKey col row)) with
    | .error e => .error e
    | .ok values =>
      if headers then
        match values with
        | [] => .error "IndexError: pop from empty list"
        | h :: t => legacyCols inputs sr er headers cols (dataSet data h t)
      else legacyCols inputs sr er headers cols (dataSet data ("col-" ++ intRepr col) values)

/-- The legacy `PySheets.sheet` (`static/api.py`): indexes the inputs
mapping directly and fails hard when a key is missing; the assembled
dict goes straight to `pandas.DataFrame.from_dict` with no `isinstance`
fallback. -/
def sheet_legacy (α : Type) (fromDict : List (String × List String) → α)
    (inputs : String → Option String) (selection : String) (headers : Bool) :
    Except String α :=
  match splitColon selection with
  | [start, stop] =>
    match get_col_row start, get_col_row stop with
    | some (sc, sr), some (ec, er) =>
      (legacyCols inputs sr er headers (intRange sc (ec + 1)) []).map fromDict
    | _, _ => .error "TypeError: get_col_row returned None"
  | _ => .error "ValueError: unpacking selection.split"

lemma currentCols_totalize (inputs : String → Option String) (sr er : Nat)
    (headers : Bool) :
    ∀ cols data,
      currentCols (fun k => some ((inputs k).getD "")) sr er headers cols data =
        currentCols inputs sr er headers cols data := by
  intro cols
  induction cols with
  | nil => intro data; rfl
  | cons col cols ih =>
    intro data
    show currentCols _ sr er headers (col :: cols) data = _
    simp only [currentCols, Option.getD_some, ih]

lemma lookupAll_ok_mem (inputs : String → Option String) :
    ∀ ks vs, lookupAll inputs ks = .ok vs → ∀ k ∈ ks, inputs k ≠ none := by
  intro ks
  induction ks with
  | nil => intro vs _ k hk; exact absurd hk (List.not_mem_nil k)
  | cons k0 ks ih =>
    intro vs hok k hk
    rcases hin : inputs k0 with _ | v
    · rw [lookupAll, hin] at hok
      exact absurd hok (by simp)
    · rw [lookupAll, hin] at hok
      rcases hrest : lookupAll inputs ks with e | vs'
      · rw [hrest] at hok
        exact absurd hok (by simp [Except.map])
      · rcases List.mem_cons.mp hk with rfl | hmem
        · rw [hin]
          exact fun hx => by cases hx
        · exact ih vs' hrest k hmem

lemma legacyCols_missing (inputs : String → Option String) (sr er : Nat)
    (headers : Bool) :
    ∀ cols data col row, col ∈ cols → sr ≤ row → row ≤ er →
      inputs (legacyKey col row) = none →
      ∃ e, legacyCols inputs sr er headers cols data = .error e := by
  intro cols
  induction cols with
  | nil => intro data col row hcol; exact absurd hcol (List.not_mem_nil col)
  | cons c0 cols ih =>
    intro data col row hcol hr1 hr2 hmiss
    rcases hlook : lookupAll inputs
        ((natRange sr (er + 1)).map (fun row => legacyKey c0 row)) with e | values
    · refine ⟨e, ?_⟩
      simp only [legacyCols, hlook]
    · have hall := lookupAll_ok_mem inputs _ _ hlook
      rcases List.mem_cons.mp hcol with rfl | hmem
      · exact absurd hmiss (hall (legacyKey col row)
          (List.mem_map_of_mem _ (mem_natRange.mpr ⟨hr1, by omega⟩)))
      · cases headers with
        | false =>
          obtain ⟨e, he⟩ := ih (dataSet data ("col-" ++ intRepr c0) values)
            col row hmem hr1 hr2 hmiss
          refine ⟨e, ?_⟩
          simp only [legacyCols, hlook, Bool.false_eq_true, if_false]
          exact he
        | true =>
          rcases values with _ | ⟨h0, t0⟩
          · refine ⟨"IndexError: pop from empty list", ?_⟩
            simp only [legacyCols, hlook, if_true]
          · obtain ⟨e, he⟩ := ih (dataSet data h0 t0) col row hmem hr1 hr2 hmiss
            refine ⟨e, ?_⟩
            simp only [legacyCols, hlook, if_true]
            exact he

lemma currentCols_ok (inputs : String → Option String) (sr er : Nat)
    (headers : Bool) (hr : headers = true → sr ≤ er) :
    ∀ cols data, ∃ out, currentCols inputs sr er headers cols data = .ok out := by
  intro cols
  induction cols with
  | nil => intro data; exact ⟨data, rfl⟩
  | cons col cols ih =>
    intro data
    cases headers with
    | false =>
      obtain ⟨out, hout⟩ := ih (dataSet data ("col-" ++ intRepr col)
        ((currentKeys col sr er).map (fun k => (inputs k).getD "")))
      refine ⟨out, ?_⟩
      simp only [currentCols, Bool.false_eq_true, if_false]
      exact hout
    | true =>
      have hsr : sr ≤ er := hr rfl
      have hne : (currentKeys col sr er).map (fun k => (inputs k).getD "") ≠ [] := by
        simp only [currentKeys, natRange, List.map_map, Ne, List.map_eq_nil_iff,
          List.range_eq_nil]
        omega
      rcases hv : (currentKeys col sr er).map (fun k => (inputs k).getD "") with _ | ⟨h0, t0⟩
      · exact absurd hv hne
      · obtain ⟨out, hout⟩ := ih (dataSet data h0 t0)
        refine ⟨out, ?_⟩
        simp only [currentCols, hv, if_true]
        exact hout

/-- C5: the current data-facade variant's `sheet()` reads missing cell
keys as the empty string — its result is unchanged when the inputs
mapping is totalized with `""` for missing keys, and its per-column
assembly always succeeds as long as a header pop has a row to pop — and
degrades a failed tabular assembly (`isDF` false) to the literal string
`"Error: Incomplete Data"` instead of raising; the legacy variant
indexes the inputs mapping directly and fails hard when any key of the
selected rectangle is missing. -/
theorem sheet_variants_spec :
    (∀ (α : Type) (fromDict : List (String × List String) → α) isDF inputs
        selection headers,
      sheet_current α fromDict isDF (fun k => some ((inputs k).getD ""))
          selection headers =
        sheet_current α fromDict isDF inputs selection headers) ∧
      (∀ (α : Type) (fromDict : List (String × List String) → α) isDF inputs
          selection headers start stop data,
        splitColon selection = [start, stop] →
        currentCols inputs (get_col_row_from_key start).2
            (get_col_row_from_key stop).2 headers
            (intRange (get_col_row_from_key start).1
              ((get_col_row_from_key stop).1 + 1)) [] = .ok data →
        (isDF (fromDict data) = false →
          sheet_current α fromDict isDF inputs selection headers =
            .ok (.inr "Error: Incomplete Data")) ∧
          (isDF (fromDict data) = true →
            sheet_current α fromDict isDF inputs selection headers =
              .ok (.inl (fromDict data)))) ∧
      (∀ inputs sr er headers, (headers = true → sr ≤ er) →
        ∀ cols data, ∃ out, currentCols inputs sr er headers cols data = .ok out) ∧
      (∀ (α : Type) (fromDict : List (String × List String) → α) inputs
          selection headers start stop sc sr ec er col row,
        splitColon selection = [start, stop] →
        get_col_row start = some (sc, sr) →
        get_col_row stop = some (ec, er) →
        sc ≤ col → col ≤ ec → sr ≤ row → row ≤ er →
        inputs (legacyKey col row) = none →
        ∃ e, sheet_legacy α fromDict inputs selection headers = .error e) := by
  refine ⟨?_, ?_, ?_, ?_⟩
  · intro α fromDict isDF inputs selection headers
    rcases hsplit : splitColon selection with _ | ⟨s1, l1⟩
    · simp only [sheet_current, hsplit]
    · rcases l1 with _ | ⟨s2, l2⟩
      · simp only [sheet_current, hsplit]
      · rcases l2 with _ | _
        · simp only [sheet_current, hsplit, currentCols_totalize]
        · simp only [sheet_current, hsplit]
  · intro α fromDict isDF inputs selection headers start stop data hsplit hdata
    constructor
    · intro hbad
      simp only [sheet_current, hsplit, hdata, hbad, Bool.false_eq_true, if_false]
    · intro hgood
      simp only [sheet_current, hsplit, hdata, hgood, if_true]
  · intro inputs sr er headers hr
    exact currentCols_ok inputs sr er headers hr
  · intro α fromDict inputs selection headers start stop sc sr ec er col row
      hsplit hst hen h1 h2 h3 h4 hmiss
    obtain ⟨e, he⟩ := legacyCols_missing inputs sr er headers
      (intRange sc (ec + 1)) [] col row (mem_intRange.mpr ⟨h1, by omega⟩)
      h3 h4 hmiss
    refine ⟨e, ?_⟩
    simp only [sheet_legacy, hsplit, hst, hen, he, Except.map]

/-- Witness for C5: with every cell missing, the current variant still
assembles (missing keys read as `""`) and degrades a non-data-frame
assembly to the error string, while the legacy variant raises. -/
theorem sheet_variants_witness :
    sheet_current Bool (fun _ => true) (fun _ => false) (fun _ => none)
        ("A1:B2") true = .ok (.inr "Error: Incomplete Data") ∧
      (∃ e, sheet_legacy Bool (fun _ => true) (fun _ => none) ("A1:B2") true =
        .error e) := by
  obtain ⟨_, h2, _, h4⟩ := sheet_variants_spec
  constructor
  · exact (h2 Bool (fun _ => true) (fun _ => false) (fun _ => none) ("A1:B2")
      true ("A1") ("B2") [("", [""])] rfl rfl).1 rfl
  · exact h4 Bool (fun _ => true) (fun _ => none) ("A1:B2") true ("A1") ("B2")
      1 1 2 2 1 1 rfl (by decide) (by decide) (by decide) (by decide)
      (by decide) (by decide) rfl

/-! ### C3 and C10: `find_inputs`

The Python parser itself is external, so scripts are represented by the
shape of their syntax tree as the `InputFinder` visitor observes it:
identifier nodes carry their context (`ast.Load` for reads, `ast.Store`
for assignment targets), constant nodes carry a string or some other
value, and every other node is just a carrier of child nodes.  A script
that fails to parse is `none`. -/

/-- The expression context of an `ast.Name` node. -/
inductive Ctx where
  | load
  | store
deriving DecidableEq

mutual
/-- A Python AST node as `InputFinder` observes it. -/
inductive Node where
  | name (id : String) (ctx : Ctx)
  | constStr (v : String)
  | constOther
  | other (children : NodeList)
/-- Children of an AST node (a genuinely mutual list so that the visitor
is structurally recursive and kernel-evaluable). -/
inductive NodeList where
  | nil
  | cons (n : Node) (ns : NodeList)
end

/-- Build a `NodeList` from a `List Node`. -/
def NodeList.ofList : List Node → NodeList
  | [] => .nil
  | n :: ns => .cons n (NodeList.ofList ns)

/-- `InputFinder.add_input`: add a key to the input set if it matches
the cell-reference pattern. -/
def add_input (st : Finset String) (s : String) : Finset String :=
  if isCellReference s then insert s st else st

/-- The body of `InputFinder.visit_Constant` on a string constant: if it
matches the cell-range pattern, split and strip it, convert both keys,
and add every key of the closed rectangle (columns outer, rows inner). -/
def expandRange (st : Finset String) (v : String) : Finset String :=
  match parseRange v with
  | none => st
  | some (s1, s2) =>
    (intRange (get_col_row_from_key s1).1 ((get_col_row_from_key s2).1 + 1)).foldl
      (fun acc col =>
        (natRange (get_col_row_from_key s1).2 ((get_col_row_from_key s2).2 + 1)).foldl
          (fun acc2 row => add_input acc2 (get_key_from_col_row col row)) acc)
      st

mutual
/-- The `InputFinder` traversal: read-context names go through
`add_input`, string constants through the range expansion, and all other
nodes just visit their children.  The first argument is the state of the
class-level `InputFinder.inputs` set, which the visitor mutates. -/
def visit (st : Finset String) : Node → Finset String
  | .name id ctx => if ctx = .load then add_input st id else st
  | .constStr v => expandRange st v
  | .constOther => st
  | .other cs => visitList st cs
/-- `visit` over a node's children, threading the shared input set. -/
def visitList (st : Finset String) : NodeList → Finset String
  | .nil => st
  | .cons n ns => visitList (visit st n) ns
end

/-- `api.find_inputs` with the process state made explicit: the first
component is the returned input list (as a set — Python returns
`list(set)` in unspecified order), the second is the class-level
`InputFinder.inputs` set after the call.  A `SyntaxError` (`none`)
returns `[]` and leaves the class attribute untouched; a successful
parse returns the *entire accumulated* class-level set. -/
def find_inputs (st : Finset String) (parsed : Option Node) :
    Finset String × Finset String :=
  match parsed with
  | none => (∅, st)
  | some t => (visit st t, visit st t)

/-- Modelled from the spec's wording for input discovery: the cell keys
of the rectangle denoted by a range literal, in iteration order. -/
def rangeKeys (v : String) : List String :=
  match parseRange v with
  | none => []
  | some (s1, s2) =>
    (intRange (get_col_row_from_key s1).1 ((get_col_row_from_key s2).1 + 1)).flatMap
      (fun col =>
        (natRange (get_col_row_from_key s1).2 ((get_col_row_from_key s2).2 + 1)).map
          (fun row => get_key_from_col_row col row))

mutual
/-- Modelled from the spec's wording: the set of inputs of a parsed
script — every read-context identifier matching the cell-reference
pattern, plus every cell key in the rectangle of every string literal
matching the cell-range pattern; assignment targets contribute
nothing. -/
def inputsSpec : Node → Finset String
  | .name id ctx =>
    if ctx = .load then (if isCellReference id then {id} else ∅) else ∅
  | .constStr v => (rangeKeys v).toFinset
  | .constOther => ∅
  | .other cs => inputsSpecList cs
/-- `inputsSpec` over children. -/
def inputsSpecList : NodeList → Finset String
  | .nil => ∅
  | .cons n ns => inputsSpec n ∪ inputsSpecList ns
end

/-! Character-class facts about generated keys, needed to show the
`add_input` filter never rejects a key produced by range expansion. -/

lemma colNameAux_upper (n : Nat) : ∀ c ∈ colNameAux n, isUpperAZ c = true := by
  induction n using Nat.strong_induction_on with
  | _ n ih =>
    match n with
    | 0 => intro c hc; exact absurd hc (List.not_mem_nil c)
    | m + 1 =>
      rw [colNameAux_succ]
      intro c hc
      rcases List.mem_append.mp hc with hc1 | hc2
      · exact ih (m / 26) (by omega) c hc1
      · rw [List.mem_singleton.mp hc2]
        exact isUpperAZ_ofNat (m % 26) (Nat.mod_lt m (by decide))

lemma colNameAux_ne_nil (n : Nat) (h : 1 ≤ n) : colNameAux n ≠ [] := by
  obtain ⟨m, rfl⟩ : ∃ m, n = m + 1 := ⟨n - 1, by omega⟩
  rw [colNameAux_succ]
  simp

lemma decAux_digits (n : Nat) : ∀ c ∈ decAux n, isDigit09 c = true := by
  induction n using Nat.strong_induction_on with
  | _ n ih =>
    match n with
    | 0 =>
      intro c hc
      rw [show decAux 0 = [] from rfl] at hc
      exact absurd hc (List.not_mem_nil c)
    | m + 1 =>
      rw [decAux_succ]
      intro c hc
      rcases List.mem_append.mp hc with hc1 | hc2
      · exact ih ((m + 1) / 10) (by omega) c hc1
      · rw [List.mem_singleton.mp hc2]
        exact isDigit09_ofNat ((m + 1) % 10) (Nat.mod_lt _ (by decide))

lemma decRepr_digits (n : Nat) : ∀ c ∈ decRepr n, isDigit09 c = true := by
  rw [decRepr]
  by_cases h : n = 0
  · rw [if_pos h]
    intro c hc
    rw [List.mem_singleton.mp hc]
    decide
  · rw [if_neg h]
    exact decAux_digits n

lemma decRepr_ne_nil (n : Nat) : decRepr n ≠ [] := by
  rw [decRepr]
  by_cases h : n = 0
  · rw [if_pos h]
    simp
  · rw [if_neg h]
    obtain ⟨m, rfl⟩ : ∃ m, n = m + 1 := ⟨n - 1, by omega⟩
    rw [decAux_succ]
    simp

lemma upper_digit_split (L D : List Char) (hL : ∀ c ∈ L, isUpperAZ c = true)
    (hD : ∀ c ∈ D, isDigit09 c = true) :
    (L ++ D).takeWhile isUpperAZ = L ∧ (L ++ D).dropWhile isUpperAZ = D := by
  induction L with
  | nil =>
    rcases D with _ | ⟨d, D'⟩
    · exact ⟨rfl, rfl⟩
    · have hd : isUpperAZ d = false :=
        not_isUpperAZ_of_isDigit09 (hD d (List.mem_cons_self d D'))
      constructor
      · show (d :: D').takeWhile isUpperAZ = []
        simp [List.takeWhile_cons, hd]
      · show (d :: D').dropWhile isUpperAZ = d :: D'
        simp [List.dropWhile_cons, hd]
  | cons c L' ih =>
    have hc : isUpperAZ c = true := hL c (List.mem_cons_self c L')
    obtain ⟨iht, ihd⟩ := ih (fun d hdm => hL d (List.mem_cons_of_mem c hdm))
    constructor
    · show (c :: (L' ++ D)).takeWhile isUpperAZ = c :: L'
      rw [List.takeWhile_cons, hc, if_pos rfl, iht]
    · show (c :: (L' ++ D)).dropWhile isUpperAZ = D
      rw [List.dropWhile_cons, hc, if_pos rfl, ihd]

lemma isCellReference_mk (L D : List Char) (hLne : L ≠ [])
    (hL : ∀ c ∈ L, isUpperAZ c = true) (hDne : D ≠ [])
    (hD : ∀ c ∈ D, isDigit09 c = true) :
    isCellReference ⟨L ++ D⟩ = true := by
  obtain ⟨ht, hd⟩ := upper_digit_split L D hL hD
  have htl : (⟨L ++ D⟩ : String).toList = L ++ D := rfl
  rcases L with _ | ⟨c0, L0⟩
  · exact absurd rfl hLne
  rcases D with _ | ⟨d0, D0⟩
  · exact absurd rfl hDne
  simp only [isCellReference, htl, ht, hd]
  have hall : (d0 :: D0).all isDigit09 = true := List.all_eq_true.mpr hD
  simp [hall]

/-- Every key the range expansion generates for a positive column index
passes the `add_input` cell-reference filter. -/
lemma cellRef_key (col : Int) (hcol : 1 ≤ col) (row : Nat) :
    isCellReference (get_key_from_col_row col row) = true := by
  have hkey : get_key_from_col_row col row =
      ⟨colNameAux col.toNat ++ decRepr row⟩ := rfl
  rw [hkey]
  exact isCellReference_mk _ _ (colNameAux_ne_nil col.toNat (by omega))
    (colNameAux_upper col.toNat) (decRepr_ne_nil row) (decRepr_digits row)

/-- Structure of a string accepted by the cell-range pattern: both keys
split into a non-empty uppercase run and a non-empty digit run. -/
lemma parseRange_some {v : String} {s1 s2 : String}
    (h : parseRange v = some (s1, s2)) :
    ∃ L1 D1 L2 D2 : List Char,
      s1 = ⟨L1 ++ D1⟩ ∧ s2 = ⟨L2 ++ D2⟩ ∧
        L1 ≠ [] ∧ (∀ c ∈ L1, isUpperAZ c = true) ∧
        D1 ≠ [] ∧ (∀ c ∈ D1, isDigit09 c = true) ∧
        L2 ≠ [] ∧ (∀ c ∈ L2, isUpperAZ c = true) ∧
        D2 ≠ [] ∧ (∀ c ∈ D2, isDigit09 c = true) := by
  rw [parseRange] at h
  split at h
  case _ r4 heq =>
    dsimp only at h
    split at h
    case isTrue => exact absurd h (by simp)
    case isFalse hcond =>
      rw [Option.some_inj, Prod.mk.injEq] at h
      obtain ⟨h1, h2⟩ := h
      simp only [Bool.or_eq_true, not_or, Bool.not_eq_true, Bool.not_eq_true',
        List.isEmpty_eq_true, List.isEmpty_eq_false] at hcond
      obtain ⟨⟨⟨⟨hc1, hc2⟩, hc3⟩, hc4⟩, -⟩ := hcond
      refine ⟨_, _, _, _, h1.symm, h2.symm, hc1, ?_, hc2, ?_, hc3, ?_, hc4, ?_⟩
      · exact fun c hc => List.mem_takeWhile_imp hc
      · exact fun c hc => List.mem_takeWhile_imp hc
      · exact fun c hc => List.mem_takeWhile_imp hc
      · exact fun c hc => List.mem_takeWhile_imp hc
  case _ => exact absurd h (by simp)

lemma rangeKeys_cellRef (v : String) :
    ∀ k ∈ rangeKeys v, isCellReference k = true := by
  intro k hk
  rw [rangeKeys] at hk
  rcases hp : parseRange v with _ | ⟨s1, s2⟩
  · rw [hp] at hk
    exact absurd hk (List.not_mem_nil k)
  · rw [hp] at hk
    obtain ⟨L1, D1, L2, D2, hs1, hs2, hL1ne, hL1, hD1ne, hD1, _, _, _, _⟩ :=
      parseRange_some hp
    rcases List.mem_flatMap.mp hk with ⟨col, hcol, hkmem⟩
    rcases List.mem_map.mp hkmem with ⟨row, _, rfl⟩
    have hsc : (get_col_row_from_key s1).1 = (letterValN L1 : Int) := by
      rw [hs1, get_col_row_split L1 D1 hL1 hD1]
    have hpos : 1 ≤ letterValN L1 := letterValN_pos L1 hL1ne hL1
    have hc1 : 1 ≤ col := by
      have := (mem_intRange.mp hcol).1
      rw [hsc] at this
      omega
    exact cellRef_key col hc1 row

/-! Folding `add_input` over a list of accepted keys is a set union. -/

lemma foldl_add_input (ks : List String) (hks : ∀ k ∈ ks, isCellReference k = true) :
    ∀ st, ks.foldl add_input st = st ∪ ks.toFinset := by
  induction ks with
  | nil => intro st; simp
  | cons k ks ih =>
    intro st
    have hk : isCellReference k = true := hks k (List.mem_cons_self k ks)
    rw [List.foldl_cons, show add_input st k = insert k st by rw [add_input, if_pos hk],
      ih (fun k' hk' => hks k' (List.mem_cons_of_mem k hk'))]
    ext x
    simp only [Finset.mem_union, Finset.mem_insert, List.toFinset_cons]
    tauto

lemma double_fold_add (cols : List Int) (g : Int → Nat → String) (rows : List Nat) :
    ∀ st : Finset String,
      cols.foldl (fun acc col =>
          rows.foldl (fun acc2 row => add_input acc2 (g col row)) acc) st =
        (cols.flatMap (fun col => rows.map (g col))).foldl add_input st := by
  induction cols with
  | nil => intro st; rfl
  | cons c cols ih =>
    intro st
    rw [List.foldl_cons, ih, List.flatMap_cons, List.foldl_append, List.foldl_map]

lemma expandRange_eq (st : Finset String) (v : String) :
    expandRange st v = st ∪ (rangeKeys v).toFinset := by
  rcases hp : parseRange v with _ | ⟨s1, s2⟩
  · simp only [expandRange, rangeKeys, hp, List.toFinset_nil, Finset.union_empty]
  · simp only [expandRange, rangeKeys, hp]
    rw [double_fold_add]
    apply foldl_add_input
    have hkeys := rangeKeys_cellRef v
    simp only [rangeKeys, hp] at hkeys
    exact hkeys

mutual
lemma visit_eq : ∀ (t : Node) (st : Finset String), visit st t = st ∪ inputsSpec t
  | .name id ctx, st => by
    cases ctx with
    | load =>
      show add_input st id = st ∪ _
      rw [add_input, inputsSpec]
      by_cases hc : isCellReference id
      · rw [if_pos hc, if_pos rfl, if_pos hc]
        ext x
        simp only [Finset.mem_insert, Finset.mem_union, Finset.mem_singleton]
        tauto
      · rw [if_neg hc, if_pos rfl, if_neg hc]
        simp
    | store =>
      show st = st ∪ _
      rw [inputsSpec]
      simp
  | .constStr v, st => by
    show expandRange st v = st ∪ _
    rw [expandRange_eq, inputsSpec]
  | .constOther, st => by
    show st = st ∪ _
    rw [inputsSpec]
    simp
  | .other cs, st => by
    show visitList st cs = st ∪ _
    rw [inputsSpec]
    exact visitList_eq cs st
lemma visitList_eq : ∀ (ns : NodeList) (st : Finset String),
    visitList st ns = st ∪ inputsSpecList ns
  | .nil, st => by
    show st = st ∪ _
    rw [inputsSpecList]
    simp
  | .cons n ns, st => by
    show visitList (visit st n) ns = st ∪ _
    rw [inputsSpecList, visitList_eq ns (visit st n), visit_eq n st,
      Finset.union_assoc]
end

/-- The concrete example script of the claim, `C5 = A1 + B2 + f("A1:A3")`:
it reads `A1` and `B2`, calls `f` on the range literal `"A1:A3"`, and
assigns to `C5` (a store-context cell-like name, which must not count). -/
def exampleTree : Node :=
  .other (.ofList [.name ("C5") .store, .name ("A1") .load, .name ("B2") .load,
    .name ("f") .load, .constStr ("A1:A3")])

/-- C3 (amended): on the *first* call in the process (empty accumulated
class-level set), `find_inputs` returns exactly the read-context
identifiers matching the cell-reference pattern plus the rectangle of
every range literal, assignment targets excluded; the concrete example
yields `{A1, A2, A3, B2}`; and a script whose parse raises a syntax
error yields the empty set from any accumulated state.  (As stated the
claim is false for later calls — see
`find_inputs_accumulates_counterexample`.) -/
theorem find_inputs_spec :
    (∀ t : Node, (find_inputs ∅ (some t)).1 = inputsSpec t) ∧
      (∀ st, find_inputs st none = (∅, st)) ∧
      (find_inputs ∅ (some exampleTree)).1 =
        ({"A1", "A2", "A3", "B2"} : Finset String) := by
  refine ⟨?_, fun st => rfl, ?_⟩
  · intro t
    show visit ∅ t = inputsSpec t
    rw [visit_eq t ∅]
    simp
  · decide

/-- C3 as literally stated (for every call) is false: after a first call
has discovered `A1`, a second call on a script that reads only `B2`
returns `{A1, B2}`, not the set `{B2}` of references the second script
itself contains — the class-level `InputFinder.inputs` set leaks earlier
results into later calls. -/
theorem find_inputs_spec_counterexample :
    (find_inputs (find_inputs ∅ (some (Node.name ("A1") Ctx.load))).2
        (some (Node.name ("B2") Ctx.load))).1 = ({"A1", "B2"} : Finset String) ∧
      inputsSpec (Node.name ("B2") Ctx.load) = ({"B2"} : Finset String) ∧
      ¬ (({"A1", "B2"} : Finset String) = ({"B2"} : Finset String)) := by
  refine ⟨by decide, by decide, by decide⟩

/-- C10 (amended): `find_inputs` is not a pure function of its argument —
the class-level `InputFinder.inputs` set accumulates across calls, so
when the second of two successive calls parses successfully its result
contains the first call's whole result and every reference discovered in
either script.  (The monotonicity fails when the second script has a
syntax error, which returns `[]` — see the counterexample.) -/
theorem find_inputs_accumulates (st : Finset String) (t1 t2 : Node) :
    (find_inputs st (some t1)).1 ⊆
        (find_inputs (find_inputs st (some t1)).2 (some t2)).1 ∧
      inputsSpec t1 ⊆ (find_inputs (find_inputs st (some t1)).2 (some t2)).1 ∧
      inputsSpec t2 ⊆ (find_inputs (find_inputs st (some t1)).2 (some t2)).1 := by
  show visit st t1 ⊆ visit (visit st t1) t2 ∧
    inputsSpec t1 ⊆ visit (visit st t1) t2 ∧ inputsSpec t2 ⊆ visit (visit st t1) t2
  rw [visit_eq t2 (visit st t1), visit_eq t1 st]
  refine ⟨Finset.subset_union_left, ?_, Finset.subset_union_right⟩
  intro x hx
  exact Finset.mem_union_left _ (Finset.mem_union_right _ hx)

/-- C10 as literally stated (for *any* two successive calls) is false:
after `find_inputs` discovers `A1` in a first script, a second call on a
script with a syntax error returns the empty set, which does not contain
`A1`. -/
theorem find_inputs_accumulates_counterexample :
    (find_inputs ∅ (some (Node.name ("A1") Ctx.load))).1 =
        ({"A1"} : Finset String) ∧
      (find_inputs (find_inputs ∅ (some (Node.name ("A1") Ctx.load))).2 none).1 =
        (∅ : Finset String) ∧
      ¬ (({"A1"} : Finset String) ⊆ (∅ : Finset String)) := by
  refine ⟨by decide, by decide, by decide⟩

/-- Witness for C4 at concrete scripts: the expression rewrite on the
second line of a two-line script, and the append on a loop script. -/
theorem intercept_last_expression_witness :
    (∃ lines', intercept_last_expression ("a = 1\na+1")
        [⟨.assign, 1⟩, ⟨.exprStmt, 2⟩] = some (joinLines lines') ∧
      lines'.length = (pySplitLines ("a = 1\na+1")).length ∧
      lines'[2 - 1]? =
        some ("_ = " ++ (pySplitLines ("a = 1\na+1")).getD (2 - 1) "") ∧
      ∀ i, i ≠ 2 - 1 → lines'[i]? = (pySplitLines ("a = 1\na+1"))[i]?) ∧
      intercept_last_expression ("for i in x: f(i)") [⟨.otherStmt, 1⟩] =
        some (joinLines
          (pySplitLines ("for i in x: f(i)") ++ ["_ = None"])) := by
  obtain ⟨_, h2, h3, _, _⟩ := intercept_last_expression_spec
  exact ⟨h2 ("a = 1\na+1") [⟨.assign, 1⟩, ⟨.exprStmt, 2⟩] ⟨.exprStmt, 2⟩
      (by decide) rfl (Or.inl rfl) (by decide),
    h3 ("for i in x: f(i)") [⟨.otherStmt, 1⟩] ⟨.otherStmt, 1⟩ (by decide) rfl
      (by decide)⟩

end PySheets
